import Mathlib

/-!
Verification of the Story Mode dependency-graph core of the htmx_playground
repository: a shallow embedding of `app/story.py` (dependency graph builder,
degree-biased topological sequencer, progress tracker) and `app/semantics.py`
(semantic column classifier), with theorems settling the specification claims.

Python dicts are embedded as association lists over `String` keys, Python sets
as duplicate-free lists in insertion order, and the `while` loop of the
sequencer as a fuel-indexed step function together with a proof that the fuel
bound is never exhausted.  Python's float arithmetic in the progress
percentages is embedded exactly, as correct rounding of rationals to 53-bit
significands (IEEE-754 binary64, normal range).
-/

set_option maxRecDepth 4000

/-- `d.get(k)` / `d[k]` on an association-list embedding of a Python dict. -/
def dictGet {α : Type} (m : List (String × α)) (k : String) : Option α :=
  (m.find? (fun p => p.1 == k)).map (fun p => p.2)

/-- `d.get(k, dflt)` on the association-list embedding. -/
def dictGetD {α : Type} (m : List (String × α)) (k : String) (dflt : α) : α :=
  (dictGet m k).getD dflt

/-- `d.setdefault(k, []).append(v)`: append `v` to the list stored at `k`,
inserting the key (at the end, as CPython does) if absent. -/
def updAppend : List (String × List String) → String → String → List (String × List String)
  | [], k, v => [(k, [v])]
  | (k', vs) :: rest, k, v =>
    if k' = k then (k', vs ++ [v]) :: rest else (k', vs) :: updAppend rest k v

/-- `d.setdefault(k, [])` used purely for key insertion. -/
def updInit : List (String × List String) → String → List (String × List String)
  | [], k => [(k, [])]
  | (k', vs) :: rest, k =>
    if k' = k then (k', vs) :: rest else (k', vs) :: updInit rest k

/-- `s.add(t)` on the insertion-ordered duplicate-free list embedding of a
Python set. -/
def addNode (ns : List String) (t : String) : List String :=
  if t ∈ ns then ns else ns ++ [t]

/-- One foreign-key descriptor of the cached metadata; the graph code of
`story.py` reads only the `fk['table']` field (the referenced table). -/
structure FKey where
  table : String
deriving DecidableEq

/-- One per-table record of the cached metadata snapshot returned by
`get_cached_metadata()`: `{'table_name': ..., 'foreign_keys': [...]}`
(the `row_count`/`columns` fields are unused by the graph builder). -/
structure TableMeta where
  table_name : String
  foreign_keys : List FKey
deriving DecidableEq

/-- The dict returned by `build_dependency_graph` (story.py lines 44-89). -/
structure DepGraph where
  nodes : List String
  edges : List (String × String)
  outgoing : List (String × List String)
  incoming : List (String × List String)
  in_degree : List (String × Nat)
  out_degree : List (String × Nat)
deriving DecidableEq

/-- Accumulator for the metadata fold of `build_dependency_graph`. -/
structure BuildSt where
  nodes : List String
  edges : List (String × String)
  outgoing : List (String × List String)
  incoming : List (String × List String)
deriving DecidableEq

/-- Body of the outer `for table_info in metadata` loop of
`build_dependency_graph`: seed the table's entries, then process each foreign
key whose referenced-table name is truthy (non-empty). -/
def buildStep (st : BuildSt) (tm : TableMeta) : BuildSt :=
  let st0 : BuildSt :=
    { nodes := addNode st.nodes tm.table_name
      edges := st.edges
      outgoing := updInit st.outgoing tm.table_name
      incoming := updInit st.incoming tm.table_name }
  tm.foreign_keys.foldl
    (fun st fk =>
      if fk.table ≠ "" then
        { nodes := addNode st.nodes fk.table
          edges := st.edges ++ [(tm.table_name, fk.table)]
          outgoing := updAppend st.outgoing tm.table_name fk.table
          incoming := updAppend st.incoming fk.table tm.table_name }
      else st)
    st0

/-- `build_dependency_graph` (story.py lines 44-89), as a function of the
metadata snapshot that the Python code obtains from `get_cached_metadata()`.
Degrees are the adjacency-list lengths computed after all edges are added. -/
def build_dependency_graph (metadata : List TableMeta) : DepGraph :=
  let st := metadata.foldl buildStep ⟨[], [], [], []⟩
  { nodes := st.nodes
    edges := st.edges
    outgoing := st.outgoing
    incoming := st.incoming
    in_degree := st.nodes.map (fun t => (t, (dictGetD st.incoming t []).length))
    out_degree := st.nodes.map (fun t => (t, (dictGetD st.outgoing t []).length)) }

/-- `graph['in_degree'].get(t, 0)`, the sort key of the sequencer. -/
def indeg (g : DepGraph) (t : String) : Nat :=
  dictGetD g.in_degree t 0

/-- Insert `x` into a descending-by-key sorted list, before the first element
of strictly smaller key (so among equal keys `x`, coming from the left of the
unsorted input, stays first: stability). -/
def insertDesc (key : String → Nat) (x : String) : List String → List String
  | [] => [x]
  | y :: ys => if key y ≤ key x then x :: y :: ys else y :: insertDesc key x ys

/-- Stable sort, descending by `key`.  CPython's `list.sort` with
`key=lambda t: -in_degree(t)` is a stable sort with the same ordering, and a
stable sort's output is uniquely determined by the input and the key, so this
insertion sort is extensionally the same function. -/
def sortDesc (key : String → Nat) : List String → List String
  | [] => []
  | x :: xs => insertDesc key x (sortDesc key xs)

/-- State of the `while queue:` loop of `topological_sort_tables`
(story.py lines 120-144): the work queue, the `visited` set (a Python set used
only through membership, embedded as the list of elements in insertion order)
and the `result` list. -/
structure SortState where
  queue : List String
  visited : List String
  result : List String
deriving DecidableEq

/-- The batch of dependents enqueued when `table` is visited: each entry of
`incoming[table]` (in order, duplicates kept) that is not in `visited` and all
of whose outgoing references are in `visited`. -/
def enqList (g : DepGraph) (visited : List String) (table : String) : List String :=
  (dictGetD g.incoming table []).filter
    (fun dependent =>
      !visited.contains dependent &&
        (dictGetD g.outgoing dependent []).all (fun d => visited.contains d))

/-- One iteration of the `while queue:` loop: pop the front; if already
visited, skip (no re-sort); otherwise visit, enqueue every dependent (entry of
`incoming[table]`) that is unvisited and has all its outgoing references
visited, then re-sort the queue descending by `in_degree`.  Returns `none`
when the queue is empty (loop exit). -/
def stepFn (g : DepGraph) (st : SortState) : Option SortState :=
  match st.queue with
  | [] => none
  | table :: rest =>
    if table ∈ st.visited then
      some { st with queue := rest }
    else
      let visited := st.visited ++ [table]
      let result := st.result ++ [table]
      let enq := enqList g visited table
      some { queue := sortDesc (indeg g) (rest ++ enq), visited := visited, result := result }

/-- The loop, driven by fuel; `topoSortGraph` supplies fuel exceeding the
loop's termination measure, so the fuel-exhausted branch is unreachable there
(proved below). -/
def loop (g : DepGraph) : Nat → SortState → SortState
  | 0, st => st
  | fuel + 1, st =>
    match stepFn g st with
    | none => st
    | some st2 => loop g fuel st2

/-- Initial loop state: the queue holds the tables with `ref_count[t] == 0`
(no outgoing references), in node order, sorted descending by `in_degree`;
`visited` and `result` start empty. -/
def initSt (g : DepGraph) : SortState :=
  { queue := sortDesc (indeg g) (g.nodes.filter (fun t => (dictGetD g.outgoing t []).length == 0))
    visited := []
    result := [] }

/-- Fuel exceeding the loop's iteration count: each iteration either pops a
stale entry (queue shrinks) or visits a node (at most `|incoming[table]|` new
entries, each incoming list spent at most once). -/
def sortFuel (g : DepGraph) : Nat :=
  g.nodes.length + (g.incoming.map (fun p => p.2.length)).sum + 1

/-- `topological_sort_tables` on an already-built graph: run the loop, then
append the never-visited nodes (cycle fallback) in node order. -/
def topoSortGraph (g : DepGraph) : List String :=
  let fin := loop g (sortFuel g) (initSt g)
  fin.result ++ g.nodes.filter (fun t => !fin.visited.contains t)

/-- `topological_sort_tables` (story.py lines 92-151) as a function of the
metadata snapshot.  The local `in_degree` dict recomputed at lines 106-110 of
the source is dead code (the sort key below uses `graph['in_degree']`), so it
is not modelled. -/
def topological_sort_tables (metadata : List TableMeta) : List String :=
  topoSortGraph (build_dependency_graph metadata)

/-- A state of the sequencer loop reachable from the initial state. -/
def Reachable (g : DepGraph) (st : SortState) : Prop :=
  Relation.ReflTransGen (fun a b => stepFn g a = some b) (initSt g) st

/-- The dependency graph has no directed cycle (following edges
`(A, B)` = "A references B"). -/
def Acyclic (g : DepGraph) : Prop :=
  ∀ t, ¬ Relation.TransGen (fun a b => (a, b) ∈ g.edges) t t

/-- Well-formedness facts about a built graph, proved below for every output
of `build_dependency_graph` and consumed by the sequencer proofs. -/
structure GraphWF (g : DepGraph) : Prop where
  nodes_nodup : g.nodes.Nodup
  incoming_sub : ∀ b, ∀ a ∈ dictGetD g.incoming b [], a ∈ g.nodes
  outgoing_sub : ∀ a, ∀ b ∈ dictGetD g.outgoing a [], b ∈ g.nodes
  edge_out : ∀ a b, (a, b) ∈ g.edges ↔ b ∈ dictGetD g.outgoing a []
  edge_in : ∀ a b, (a, b) ∈ g.edges ↔ a ∈ dictGetD g.incoming b []

/-- Invariant of the sequencer loop. -/
structure LoopInv (g : DepGraph) (st : SortState) : Prop where
  vis_eq : st.visited = st.result
  vis_nodup : st.result.Nodup
  vis_sub : ∀ t ∈ st.visited, t ∈ g.nodes
  queue_sub : ∀ t ∈ st.queue, t ∈ g.nodes
  queue_deps : ∀ t ∈ st.queue, ∀ d ∈ dictGetD g.outgoing t [], d ∈ st.visited
  main_inv : ∀ u ∈ g.nodes, u ∉ st.visited → u ∉ st.queue →
    ∃ d ∈ dictGetD g.outgoing u [], d ∉ st.visited
  order_inv : ∀ u ∈ st.result, ∀ d ∈ dictGetD g.outgoing u [],
    d ∈ st.result ∧ st.result.indexOf d < st.result.indexOf u
  queue_sorted : st.queue.Pairwise (fun a b => indeg g b ≤ indeg g a)

/-- Termination measure of the loop: queue length plus the total length of the
incoming lists of the still-unvisited nodes. -/
def sortMeasure (g : DepGraph) (st : SortState) : Nat :=
  st.queue.length +
    ∑ t ∈ g.nodes.toFinset.filter (fun t => t ∉ st.visited),
      (dictGetD g.incoming t []).length

/-- Python `str.lower()` on one character (ASCII range, as exercised by the
column-name classifier). -/
def lowerChar (c : Char) : Char :=
  if 'A' ≤ c ∧ c ≤ 'Z' then Char.ofNat (c.toNat + 32) else c

/-- Python `column_name.lower()`. -/
def lowerStr (s : String) : String :=
  ⟨s.data.map lowerChar⟩

/-- Expansions of the `created_at` regex patterns of `SEMANTIC_PATTERNS`
(semantics.py lines 11-19).  Each regex is anchored (`^...$`) and is a literal
up to optional `[-_]?` classes, so it denotes the finite set of strings listed;
`re.match(pattern, normalized, re.IGNORECASE)` on the lower-cased name is
membership in that set. -/
def created_at_patterns : List (List String) :=
  [["createdat", "created-at", "created_at"],
   ["createdon", "created-on", "created_on"],
   ["createdat"],
   ["createdon"],
   ["datecreated", "date-created", "date_created"],
   ["creationdate", "creation-date", "creation_date"],
   ["created"]]

/-- Expansions of the `updated_at` patterns (semantics.py lines 20-33). -/
def updated_at_patterns : List (List String) :=
  [["updatedat", "updated-at", "updated_at"],
   ["updatedon", "updated-on", "updated_on"],
   ["updatedat"],
   ["updatedon"],
   ["modifiedat", "modified-at", "modified_at"],
   ["modifiedon", "modified-on", "modified_on"],
   ["modifiedat"],
   ["modifiedon"],
   ["dateupdated", "date-updated", "date_updated"],
   ["datemodified", "date-modified", "date_modified"],
   ["lastmodified", "last-modified", "last_modified"],
   ["lastupdated", "last-updated", "last_updated"]]

/-- Expansions of the `deleted_at` patterns (semantics.py lines 34-41). -/
def deleted_at_patterns : List (List String) :=
  [["deletedat", "deleted-at", "deleted_at"],
   ["deletedon", "deleted-on", "deleted_on"],
   ["deletedat"],
   ["deletedon"],
   ["datedeleted", "date-deleted", "date_deleted"],
   ["softdeleted", "soft-deleted", "soft_deleted"]]

/-- Expansions of the `created_by` patterns (semantics.py lines 42-48). -/
def created_by_patterns : List (List String) :=
  [["createdby", "created-by", "created_by"],
   ["createdby"],
   ["author"],
   ["creator"],
   ["owner"]]

/-- Expansions of the `updated_by` patterns (semantics.py lines 49-56). -/
def updated_by_patterns : List (List String) :=
  [["updatedby", "updated-by", "updated_by"],
   ["updatedby"],
   ["modifiedby", "modified-by", "modified_by"],
   ["modifiedby"],
   ["lastmodifiedby", "lastmodified-by", "lastmodified_by",
    "last-modifiedby", "last-modified-by", "last-modified_by",
    "last_modifiedby", "last_modified-by", "last_modified_by"],
   ["editor"]]

/-- Expansions of the `status` patterns (semantics.py lines 57-64). -/
def status_patterns : List (List String) :=
  [["status"],
   ["state"],
   ["isactive", "is-active", "is_active"],
   ["active"],
   ["enabled"],
   ["isenabled", "is-enabled", "is_enabled"]]

/-- `SEMANTIC_PATTERNS` (semantics.py lines 10-65): an insertion-ordered dict
from semantic role to its pattern list. -/
def SEMANTIC_PATTERNS : List (String × List (List String)) :=
  [("created_at", created_at_patterns),
   ("updated_at", updated_at_patterns),
   ("deleted_at", deleted_at_patterns),
   ("created_by", created_by_patterns),
   ("updated_by", updated_by_patterns),
   ("status", status_patterns)]

/-- `any(re.match(p, normalized, re.IGNORECASE) for p in patterns)`: some
pattern of the role fully matches the normalized name. -/
def matchAny (pats : List (List String)) (s : String) : Bool :=
  pats.any (fun pat => pat.contains s)

/-- `detect_semantic_type` (semantics.py lines 73-87): lower-case the name,
walk the roles in dict insertion order, return the first role one of whose
patterns matches; `none` otherwise. -/
def detect_semantic_type (column_name : String) : Option String :=
  let normalized := lowerStr column_name
  (SEMANTIC_PATTERNS.find? (fun p => matchAny p.2 normalized)).map (fun p => p.1)

/-- The documented fixed priority order of the roles (spec section 4.3).
Definition follows the spec's words, for comparison with the source-derived
`detect_semantic_type`. -/
def rolePriority : List String :=
  ["created_at", "updated_at", "deleted_at", "created_by", "updated_by", "status"]

/-- "some pattern of this role matches the lower-cased column name", the
per-role test of the spec's priority-order description. -/
def roleMatches (role : String) (name : String) : Bool :=
  matchAny (dictGetD SEMANTIC_PATTERNS role []) (lowerStr name)

/-- The classifier as the spec words it: the first role in the fixed priority
order with a matching pattern, else none. -/
def detectSpec (name : String) : Option String :=
  rolePriority.find? (fun r => roleMatches r name)

/-- Bit length of a natural number, fuel-driven so that it reduces in the
kernel (`Nat.log2` is well-founded recursion and does not). -/
def bitlenF : Nat → Nat → Nat
  | 0, _ => 0
  | f + 1, n => if n = 0 then 0 else bitlenF f (n / 2) + 1

/-- Bit length: `bitlen n = ⌊log2 n⌋ + 1` for `n ≥ 1`, `0` for `0`. -/
def bitlen (n : Nat) : Nat :=
  bitlenF n n

/-- Round the positive rational `n / d` to a 53-bit significand, nearest,
ties to even: the IEEE-754 binary64 value of the exact quotient (normal
range; the progress-percentage ratios stay far inside it).  Returns
`(m, t)` with value `m * 2 ^ t`. -/
def froundN (n d : Nat) : Nat × Int :=
  if n = 0 ∨ d = 0 then (0, 0)
  else
    let t0 : Int := (bitlen n : Int) - (bitlen d : Int)
    let ge : Bool :=
      if t0 ≥ 0 then d * 2 ^ t0.toNat ≤ n else d ≤ n * 2 ^ (-t0).toNat
    let e : Int := if ge then t0 else t0 - 1
    let k : Int := 52 - e
    let mn : Nat := n * 2 ^ (max k 0).toNat
    let mden : Nat := d * 2 ^ (max (-k) 0).toNat
    let q : Nat := mn / mden
    let r : Nat := mn % mden
    let m : Nat :=
      if 2 * r < mden then q
      else if mden < 2 * r then q + 1
      else if q % 2 = 0 then q else q + 1
    (m, e - 52)

/-- Python float true division `a / b` on non-negative ints (correctly rounded
to binary64), on the `(significand, exponent)` representation. -/
def fdiv (a b : Nat) : Nat × Int :=
  froundN a b

/-- Python float multiplication `x * 100` (exact product re-rounded to 53
bits; the power-of-two exponent shift is exact). -/
def fmul100 (x : Nat × Int) : Nat × Int :=
  let r := froundN (100 * x.1) 1
  (r.1, r.2 + x.2)

/-- Python `int(x)` on a non-negative float: truncation (= floor). -/
def ffloor (x : Nat × Int) : Nat :=
  if 0 ≤ x.2 then x.1 * 2 ^ x.2.toNat else x.1 / 2 ^ (-x.2).toNat

/-- `min(100, int((current / required) * 100))` exactly as the Python float
computation performs it, for `required > 0`. -/
def pyPercent (current required : Nat) : Nat :=
  min 100 (ffloor (fmul100 (fdiv current required)))

/-- A `StoryStep` row (story.py lines 31-41). -/
structure StoryStep where
  id : Int
  source_type : String
  source_name : String
  order_index : Int
  title : String
  description : String
  min_records_required : Int
  enabled : Bool
deriving DecidableEq

/-- The progress dict returned by `get_step_progress`. -/
structure StepProgress where
  current_count : Nat
  required : Int
  is_complete : Bool
  percentage : Int
deriving DecidableEq

/-- `get_step_progress` (story.py lines 436-457).  The live row-count lookup
(`get_table_row_count`, which returns the table's `COUNT(*)` and falls back to
`0` on any database error) is the external collaborator `rowCount`; its result
is a count, hence a natural number.  Steps whose `source_type` is not
`'table'` use a current count of `0`. -/
def get_step_progress (rowCount : String → Nat) (step : StoryStep) : StepProgress :=
  let current : Nat := if step.source_type = "table" then rowCount step.source_name else 0
  let required : Int := step.min_records_required
  { current_count := current
    required := required
    is_complete := decide ((current : Int) ≥ required)
    percentage :=
      if required > 0 then (pyPercent current required.toNat : Int) else 100 }

/-- The aggregate dict returned by `get_story_progress`. -/
structure StoryProgress where
  steps : List (StoryStep × StepProgress)
  total_steps : Nat
  completed_steps : Nat
  overall_percentage : Int
  is_complete : Bool
deriving DecidableEq

/-- `get_story_progress` (story.py lines 460-492), as a function of the list
of enabled steps (which the Python code reads from storage via
`get_story_steps(include_disabled=False)`) and the row-count collaborator.
`overall_percentage` is `int((completed / total) * 100)` in Python floats,
`100` when there are no steps. -/
def get_story_progress (rowCount : String → Nat) (steps : List StoryStep) : StoryProgress :=
  let step_progress := steps.map (fun s => (s, get_step_progress rowCount s))
  let completed := (step_progress.filter (fun p => p.2.is_complete)).length
  let total := steps.length
  { steps := step_progress
    total_steps := total
    completed_steps := completed
    overall_percentage :=
      if total > 0 then (ffloor (fmul100 (fdiv completed total)) : Int) else 100
    is_complete := completed == total }

/-- Invariant carried through the metadata fold of `build_dependency_graph`. -/
structure BuildInv (st : BuildSt) : Prop where
  nodes_nodup : st.nodes.Nodup
  out_edge : ∀ a b, b ∈ dictGetD st.outgoing a [] → (a, b) ∈ st.edges
  in_edge : ∀ a b, a ∈ dictGetD st.incoming b [] → (a, b) ∈ st.edges
  edge_mem : ∀ a b, (a, b) ∈ st.edges →
    b ∈ dictGetD st.outgoing a [] ∧ a ∈ dictGetD st.incoming b [] ∧
      a ∈ st.nodes ∧ b ∈ st.nodes

/-- Metadata with a duplicated foreign key (`Y` carries two FK descriptors to
`P`, as a composite key introspects) plus a chain `Z1, Z2 → X → Y`:
the input exhibiting the stale-queue-entry behaviour of the sequencer. -/
def mdStale : List TableMeta :=
  [⟨"P", []⟩,
   ⟨"Y", [⟨"P"⟩, ⟨"P"⟩]⟩,
   ⟨"X", [⟨"Y"⟩]⟩,
   ⟨"Z1", [⟨"X"⟩]⟩,
   ⟨"Z2", [⟨"X"⟩]⟩]

/-- The documented 3-table foreign-key cycle A→B→C→A. -/
def mdCycle : List TableMeta :=
  [⟨"A", [⟨"B"⟩]⟩, ⟨"B", [⟨"C"⟩]⟩, ⟨"C", [⟨"A"⟩]⟩]

/-- The documented 4-table scenario: `orders` references a `users` table that
has no metadata record (dangling reference); records are listed in
`table_name` order, as `get_cached_metadata()` returns them. -/
def mdScenario : List TableMeta :=
  [⟨"categories", []⟩,
   ⟨"order_items", [⟨"products"⟩, ⟨"orders"⟩]⟩,
   ⟨"orders", [⟨"users"⟩]⟩,
   ⟨"products", [⟨"categories"⟩]⟩]

/-- Two seed tables of different in-degree plus two dependents: a witness
input where distinct-in-degree tables share the initial queue. -/
def mdTwoSeeds : List TableMeta :=
  [⟨"A", []⟩, ⟨"B", []⟩, ⟨"C", [⟨"A"⟩]⟩, ⟨"D", [⟨"A"⟩]⟩]

/-- Acyclic two-table witness input (`products` references `categories`). -/
def mdAcyclicPair : List TableMeta :=
  [⟨"categories", []⟩, ⟨"products", [⟨"categories"⟩]⟩]

/-- A step requiring 100 records of a table (the percentage failing input). -/
def stepRequire100 : StoryStep :=
  ⟨1, "table", "t", 0, "", "", 100, true⟩

/-- Row-count collaborator reporting 29 rows for every table. -/
def rowCount29 : String → Nat :=
  fun _ => 29

/-- Row-count collaborator reporting 0 rows for every table. -/
def rowCount0 : String → Nat :=
  fun _ => 0

/-- Row-count collaborator reporting 7 rows for every table. -/
def rowCount7 : String → Nat :=
  fun _ => 7

/-- Fifty enabled steps of which exactly the first 29 are complete
(`min_records_required = 0` steps are vacuously complete, the rest require one
record and none exist): the aggregate-percentage failing input. -/
def stepsFifty : List StoryStep :=
  (List.range 50).map
    (fun i => ⟨(i : Int), "table", "t", (i : Int), "", "", if i < 29 then 0 else 1, true⟩)

/-- A non-table (view) step requiring one record. -/
def stepView : StoryStep :=
  ⟨2, "view", "v", 0, "", "", 1, true⟩

theorem dictGet_cons {α : Type} (k : String) (v : α) (m : List (String × α)) (t : String) :
    dictGet ((k, v) :: m) t = if k = t then some v else dictGet m t := by
  simp only [dictGet, List.find?]
  by_cases h : k = t
  · simp [h]
  · simp [h, beq_eq_false_iff_ne.mpr h]

theorem dictGet_nil {α : Type} (t : String) : dictGet ([] : List (String × α)) t = none := rfl

theorem dictGetD_cons {α : Type} (k : String) (v : α) (m : List (String × α)) (t : String) (d : α) :
    dictGetD ((k, v) :: m) t d = if k = t then v else dictGetD m t d := by
  simp only [dictGetD, dictGet_cons]
  by_cases h : k = t <;> simp [h]

theorem dictGet_updAppend_self (m : List (String × List String)) (k v : String) :
    dictGet (updAppend m k v) k = some (dictGetD m k [] ++ [v]) := by
  induction m with
  | nil => simp [updAppend, dictGet_cons, dictGetD, dictGet_nil]
  | cons p rest ih =>
    obtain ⟨k', vs⟩ := p
    by_cases h : k' = k
    · subst h
      simp [updAppend, dictGet_cons, dictGetD, dictGet_cons]
    · simp [updAppend, h, dictGet_cons, ih, dictGetD, dictGet_cons]

theorem dictGet_updAppend_ne (m : List (String × List String)) (k v t : String) (h : t ≠ k) :
    dictGet (updAppend m k v) t = dictGet m t := by
  induction m with
  | nil => simp [updAppend, dictGet_cons, Ne.symm h, dictGet_nil]
  | cons p rest ih =>
    obtain ⟨k', vs⟩ := p
    by_cases hk : k' = k
    · subst hk
      simp [updAppend, dictGet_cons, Ne.symm h]
    · simp [updAppend, hk, dictGet_cons, ih]

theorem dictGet_updInit_self (m : List (String × List String)) (k : String) :
    dictGet (updInit m k) k = some (dictGetD m k []) := by
  induction m with
  | nil => simp [updInit, dictGet_cons, dictGetD, dictGet_nil]
  | cons p rest ih =>
    obtain ⟨k', vs⟩ := p
    by_cases h : k' = k
    · subst h
      simp [updInit, dictGet_cons, dictGetD, dictGet_cons]
    · simp [updInit, h, dictGet_cons, ih, dictGetD, dictGet_cons]

theorem dictGet_updInit_ne (m : List (String × List String)) (k t : String) (h : t ≠ k) :
    dictGet (updInit m k) t = dictGet m t := by
  induction m with
  | nil => simp [updInit, dictGet_cons, Ne.symm h, dictGet_nil]
  | cons p rest ih =>
    obtain ⟨k', vs⟩ := p
    by_cases hk : k' = k
    · subst hk
      simp [updInit, dictGet_cons, Ne.symm h]
    · simp [updInit, hk, dictGet_cons, ih]

theorem dictGetD_updAppend_self (m : List (String × List String)) (k v : String) :
    dictGetD (updAppend m k v) k [] = dictGetD m k [] ++ [v] := by
  simp [dictGetD, dictGet_updAppend_self]

theorem dictGetD_updAppend_ne (m : List (String × List String)) (k v t : String) (h : t ≠ k) :
    dictGetD (updAppend m k v) t [] = dictGetD m t [] := by
  simp [dictGetD, dictGet_updAppend_ne m k v t h]

theorem dictGetD_updInit_self (m : List (String × List String)) (k : String) :
    dictGetD (updInit m k) k [] = dictGetD m k [] := by
  simp [dictGetD, dictGet_updInit_self]

theorem dictGetD_updInit_ne (m : List (String × List String)) (k t : String) (h : t ≠ k) :
    dictGetD (updInit m k) t [] = dictGetD m t [] := by
  simp [dictGetD, dictGet_updInit_ne m k t h]

theorem mem_addNode (ns : List String) (s t : String) :
    t ∈ addNode ns s ↔ t ∈ ns ∨ t = s := by
  unfold addNode
  by_cases h : s ∈ ns
  · simp only [if_pos h]
    constructor
    · exact Or.inl
    · rintro (h1 | rfl)
      · exact h1
      · exact h
  · simp [if_neg h]

theorem addNode_nodup (ns : List String) (s : String) (h : ns.Nodup) :
    (addNode ns s).Nodup := by
  unfold addNode
  by_cases hs : s ∈ ns
  · simpa [hs]
  · simp [hs, List.nodup_append, h]

theorem mem_addNode_of_mem (ns : List String) (s t : String) (h : t ∈ ns) :
    t ∈ addNode ns s := (mem_addNode ns s t).mpr (Or.inl h)

theorem self_mem_addNode (ns : List String) (s : String) :
    s ∈ addNode ns s := (mem_addNode ns s s).mpr (Or.inr rfl)

theorem insertDesc_perm (key : String → Nat) (x : String) (l : List String) :
    (insertDesc key x l).Perm (x :: l) := by
  induction l with
  | nil => simp [insertDesc]
  | cons y ys ih =>
    unfold insertDesc
    by_cases h : key y ≤ key x
    · simp [h]
    · simp only [if_neg h]
      exact (ih.cons y).trans (List.Perm.swap x y ys)

theorem sortDesc_perm (key : String → Nat) (l : List String) :
    (sortDesc key l).Perm l := by
  induction l with
  | nil => simp [sortDesc]
  | cons x xs ih =>
    unfold sortDesc
    exact (insertDesc_perm key x (sortDesc key xs)).trans (ih.cons x)

theorem mem_sortDesc (key : String → Nat) (l : List String) (t : String) :
    t ∈ sortDesc key l ↔ t ∈ l :=
  (sortDesc_perm key l).mem_iff

theorem sortDesc_length (key : String → Nat) (l : List String) :
    (sortDesc key l).length = l.length :=
  (sortDesc_perm key l).length_eq

theorem insertDesc_sorted (key : String → Nat) (x : String) (l : List String)
    (h : l.Pairwise (fun a b => key b ≤ key a)) :
    (insertDesc key x l).Pairwise (fun a b => key b ≤ key a) := by
  induction l with
  | nil => simp [insertDesc]
  | cons y ys ih =>
    rw [List.pairwise_cons] at h
    unfold insertDesc
    by_cases hk : key y ≤ key x
    · rw [if_pos hk, List.pairwise_cons]
      refine ⟨?_, List.pairwise_cons.mpr h⟩
      intro z hz
      rcases List.mem_cons.mp hz with rfl | hz
      · exact hk
      · exact le_trans (h.1 z hz) hk
    · rw [if_neg hk, List.pairwise_cons]
      refine ⟨?_, ih h.2⟩
      intro z hz
      have hz' : z = x ∨ z ∈ ys := List.mem_cons.mp ((insertDesc_perm key x ys).mem_iff.mp hz)
      rcases hz' with h1 | h2
      · rw [h1]
        exact le_of_lt (lt_of_not_le hk)
      · exact h.1 z h2

theorem sortDesc_sorted (key : String → Nat) (l : List String) :
    (sortDesc key l).Pairwise (fun a b => key b ≤ key a) := by
  induction l with
  | nil => simp [sortDesc]
  | cons x xs ih => exact insertDesc_sorted key x (sortDesc key xs) ih

theorem indexOf_append_not_mem {a : String} {l1 l2 : List String} (h : a ∉ l1) :
    (l1 ++ l2).indexOf a = l1.length + l2.indexOf a := by
  induction l1 with
  | nil => simp
  | cons x xs ih =>
    simp only [List.mem_cons, not_or] at h
    rw [List.cons_append, List.indexOf_cons, ih h.2]
    have : (x == a) = false := beq_eq_false_iff_ne.mpr (Ne.symm h.1)
    simp [this, Nat.add_assoc, Nat.add_comm 1]

theorem find?_congr_mem {α : Type} (l : List α) (p q : α → Bool)
    (h : ∀ x ∈ l, p x = q x) : l.find? p = l.find? q := by
  induction l with
  | nil => rfl
  | cons x xs ih =>
    have hx := h x (List.mem_cons_self x xs)
    rw [List.find?_cons, List.find?_cons, ← hx]
    cases hpx : p x
    · exact ih (fun y hy => h y (List.mem_cons_of_mem x hy))
    · rfl

theorem dictGet_map_self {α : Type} (l : List String) (f : String → α) (t : String)
    (h : t ∈ l) : dictGet (l.map (fun s => (s, f s))) t = some (f t) := by
  induction l with
  | nil => cases h
  | cons x xs ih =>
    rw [List.map_cons, dictGet_cons]
    by_cases hx : x = t
    · subst hx
      simp
    · rcases List.mem_cons.mp h with rfl | h2
      · exact absurd rfl hx
      · simp [hx, ih h2]

theorem buildInv_fkFold (a : String) (fks : List FKey) (st : BuildSt)
    (hI : BuildInv st) (ha : a ∈ st.nodes) :
    BuildInv (fks.foldl
      (fun st fk =>
        if fk.table ≠ "" then
          { nodes := addNode st.nodes fk.table
            edges := st.edges ++ [(a, fk.table)]
            outgoing := updAppend st.outgoing a fk.table
            incoming := updAppend st.incoming fk.table a }
        else st) st) ∧
    a ∈ (fks.foldl
      (fun st fk =>
        if fk.table ≠ "" then
          { nodes := addNode st.nodes fk.table
            edges := st.edges ++ [(a, fk.table)]
            outgoing := updAppend st.outgoing a fk.table
            incoming := updAppend st.incoming fk.table a }
        else st) st).nodes := by
  induction fks generalizing st with
  | nil => exact ⟨hI, ha⟩
  | cons fk rest ih =>
    rw [List.foldl_cons]
    by_cases hfk : fk.table ≠ ""
    · rw [if_pos hfk]
      refine ih _ ?_ (mem_addNode_of_mem _ _ _ ha)
      constructor
      · exact addNode_nodup _ _ hI.nodes_nodup
      · intro x y hy
        by_cases hx : x = a
        · subst hx
          rw [dictGetD_updAppend_self] at hy
          rcases List.mem_append.mp hy with h1 | h2
          · exact List.mem_append_left _ (hI.out_edge x y h1)
          · rw [List.mem_singleton.mp h2]
            exact List.mem_append_right _ (List.mem_singleton.mpr rfl)
        · rw [dictGetD_updAppend_ne _ _ _ _ hx] at hy
          exact List.mem_append_left _ (hI.out_edge x y hy)
      · intro x y hx
        by_cases hy : y = fk.table
        · subst hy
          rw [dictGetD_updAppend_self] at hx
          rcases List.mem_append.mp hx with h1 | h2
          · exact List.mem_append_left _ (hI.in_edge x fk.table h1)
          · rw [List.mem_singleton.mp h2]
            exact List.mem_append_right _ (List.mem_singleton.mpr rfl)
        · rw [dictGetD_updAppend_ne _ _ _ _ hy] at hx
          exact List.mem_append_left _ (hI.in_edge x y hx)
      · intro x y hxy
        rcases List.mem_append.mp hxy with h1 | h2
        · obtain ⟨m1, m2, m3, m4⟩ := hI.edge_mem x y h1
          refine ⟨?_, ?_, mem_addNode_of_mem _ _ _ m3, mem_addNode_of_mem _ _ _ m4⟩
          · by_cases hx : x = a
            · subst hx
              rw [dictGetD_updAppend_self]
              exact List.mem_append_left _ m1
            · rw [dictGetD_updAppend_ne _ _ _ _ hx]
              exact m1
          · by_cases hy : y = fk.table
            · subst hy
              rw [dictGetD_updAppend_self]
              exact List.mem_append_left _ m2
            · rw [dictGetD_updAppend_ne _ _ _ _ hy]
              exact m2
        · obtain ⟨rfl, rfl⟩ := Prod.mk.injEq .. ▸ List.mem_singleton.mp h2
          refine ⟨?_, ?_, mem_addNode_of_mem _ _ _ ha, self_mem_addNode _ _⟩
          · rw [dictGetD_updAppend_self]
            exact List.mem_append_right _ (List.mem_singleton.mpr rfl)
          · rw [dictGetD_updAppend_self]
            exact List.mem_append_right _ (List.mem_singleton.mpr rfl)
    · rw [if_neg hfk]
      exact ih st hI ha

theorem buildInv_step (st : BuildSt) (tm : TableMeta) (hI : BuildInv st) :
    BuildInv (buildStep st tm) := by
  unfold buildStep
  have h0 : BuildInv
      { nodes := addNode st.nodes tm.table_name
        edges := st.edges
        outgoing := updInit st.outgoing tm.table_name
        incoming := updInit st.incoming tm.table_name : BuildSt } := by
    have houtg : ∀ x, dictGetD (updInit st.outgoing tm.table_name) x [] = dictGetD st.outgoing x [] := by
      intro x
      by_cases hx : x = tm.table_name
      · subst hx
        exact dictGetD_updInit_self _ _
      · exact dictGetD_updInit_ne _ _ _ hx
    have hinc : ∀ x, dictGetD (updInit st.incoming tm.table_name) x [] = dictGetD st.incoming x [] := by
      intro x
      by_cases hx : x = tm.table_name
      · subst hx
        exact dictGetD_updInit_self _ _
      · exact dictGetD_updInit_ne _ _ _ hx
    constructor
    · exact addNode_nodup _ _ hI.nodes_nodup
    · intro x y hy
      rw [houtg] at hy
      exact hI.out_edge x y hy
    · intro x y hx
      rw [hinc] at hx
      exact hI.in_edge x y hx
    · intro x y hxy
      obtain ⟨m1, m2, m3, m4⟩ := hI.edge_mem x y hxy
      exact ⟨(houtg x).symm ▸ m1, (hinc y).symm ▸ m2,
        mem_addNode_of_mem _ _ _ m3, mem_addNode_of_mem _ _ _ m4⟩
  exact (buildInv_fkFold tm.table_name tm.foreign_keys _ h0 (self_mem_addNode _ _)).1

theorem buildInv_fold (metadata : List TableMeta) :
    BuildInv (metadata.foldl buildStep ⟨[], [], [], []⟩) := by
  have hbase : BuildInv (⟨[], [], [], []⟩ : BuildSt) := by
    refine ⟨List.nodup_nil, ?_, ?_, ?_⟩
    · intro x y hy
      simp [dictGetD, dictGet_nil] at hy
    · intro x y hx
      simp [dictGetD, dictGet_nil] at hx
    · intro x y hxy
      cases hxy
  have : ∀ (l : List TableMeta) (st : BuildSt), BuildInv st → BuildInv (l.foldl buildStep st) := by
    intro l
    induction l with
    | nil => exact fun st h => h
    | cons tm rest ih =>
      intro st h
      rw [List.foldl_cons]
      exact ih _ (buildInv_step st tm h)
  exact this metadata _ hbase

theorem graphWF_build (metadata : List TableMeta) :
    GraphWF (build_dependency_graph metadata) := by
  have hI := buildInv_fold metadata
  constructor
  · exact hI.nodes_nodup
  · intro b x hx
    exact (hI.edge_mem x b (hI.in_edge x b hx)).2.2.1
  · intro a x hx
    exact (hI.edge_mem a x (hI.out_edge a x hx)).2.2.2
  · intro a b
    exact ⟨fun h => (hI.edge_mem a b h).1, fun h => hI.out_edge a b h⟩
  · intro a b
    exact ⟨fun h => (hI.edge_mem a b h).2.1, fun h => hI.in_edge a b h⟩

theorem mem_enqList (g : DepGraph) (vis : List String) (table t : String) :
    t ∈ enqList g vis table ↔
      t ∈ dictGetD g.incoming table [] ∧ t ∉ vis ∧
        ∀ d ∈ dictGetD g.outgoing t [], d ∈ vis := by
  simp [enqList, List.mem_filter, Bool.and_eq_true, Bool.not_eq_true',
    List.all_eq_true, List.contains, List.elem_eq_mem, decide_eq_true_eq,
    decide_eq_false_iff_not, and_assoc]

theorem stepFn_none (g : DepGraph) (st : SortState) (h : st.queue = []) :
    stepFn g st = none := by
  obtain ⟨q, v, r⟩ := st
  dsimp only at h
  subst h
  rfl

theorem stepFn_skip (g : DepGraph) (st : SortState) (table : String) (rest : List String)
    (hq : st.queue = table :: rest) (hv : table ∈ st.visited) :
    stepFn g st = some { st with queue := rest } := by
  obtain ⟨q, v, r⟩ := st
  dsimp only at hq hv ⊢
  subst hq
  simp [stepFn, hv]

theorem stepFn_visit (g : DepGraph) (st : SortState) (table : String) (rest : List String)
    (hq : st.queue = table :: rest) (hv : table ∉ st.visited) :
    stepFn g st = some
      { queue := sortDesc (indeg g) (rest ++ enqList g (st.visited ++ [table]) table)
        visited := st.visited ++ [table]
        result := st.result ++ [table] } := by
  obtain ⟨q, v, r⟩ := st
  dsimp only at hq hv ⊢
  subst hq
  simp [stepFn, hv]

theorem loop_zero (g : DepGraph) (st : SortState) : loop g 0 st = st := rfl

theorem loop_succ_none (g : DepGraph) (fuel : Nat) (st : SortState)
    (h : stepFn g st = none) : loop g (fuel + 1) st = st := by
  have hm : loop g (fuel + 1) st = match stepFn g st with
    | none => st
    | some s => loop g fuel s := rfl
  rw [hm, h]

theorem loop_succ_some (g : DepGraph) (fuel : Nat) (st st2 : SortState)
    (h : stepFn g st = some st2) : loop g (fuel + 1) st = loop g fuel st2 := by
  have hm : loop g (fuel + 1) st = match stepFn g st with
    | none => st
    | some s => loop g fuel s := rfl
  rw [hm, h]

theorem loopInv_init (g : DepGraph) : LoopInv g (initSt g) := by
  constructor
  · rfl
  · exact List.nodup_nil
  · intro t ht
    cases ht
  · intro t ht
    simp only [initSt] at ht
    exact (List.mem_filter.mp ((mem_sortDesc _ _ t).mp ht)).1
  · intro t ht d hd
    simp only [initSt] at ht
    have hlen := (List.mem_filter.mp ((mem_sortDesc _ _ t).mp ht)).2
    rw [Nat.beq_eq_true_eq] at hlen
    rw [List.length_eq_zero.mp hlen] at hd
    cases hd
  · intro u hu hv hq
    simp only [initSt] at hq
    have hnontriv : dictGetD g.outgoing u [] ≠ [] := by
      intro hnil
      apply hq
      rw [mem_sortDesc]
      refine List.mem_filter.mpr ⟨hu, ?_⟩
      rw [Nat.beq_eq_true_eq, hnil]
      rfl
    obtain ⟨d, hd⟩ := List.exists_mem_of_ne_nil _ hnontriv
    exact ⟨d, hd, fun hc => by cases hc⟩
  · intro u hu
    cases hu
  · exact sortDesc_sorted _ _

theorem loopInv_skip (g : DepGraph) (st : SortState) (table : String) (rest : List String)
    (hI : LoopInv g st) (hq : st.queue = table :: rest) (hv : table ∈ st.visited) :
    LoopInv g { st with queue := rest } := by
  constructor
  · exact hI.vis_eq
  · exact hI.vis_nodup
  · exact hI.vis_sub
  · intro t ht
    exact hI.queue_sub t (by rw [hq]; exact List.mem_cons_of_mem _ ht)
  · intro t ht
    exact hI.queue_deps t (by rw [hq]; exact List.mem_cons_of_mem _ ht)
  · intro u hu huv huq
    refine hI.main_inv u hu huv ?_
    rw [hq]
    intro hc
    rcases List.mem_cons.mp hc with rfl | hc2
    · exact huv hv
    · exact huq hc2
  · exact hI.order_inv
  · have := hI.queue_sorted
    rw [hq] at this
    exact (List.pairwise_cons.mp this).2

theorem loopInv_visit (g : DepGraph) (hWF : GraphWF g) (st : SortState)
    (table : String) (rest : List String)
    (hI : LoopInv g st) (hq : st.queue = table :: rest) (hv : table ∉ st.visited) :
    LoopInv g
      { queue := sortDesc (indeg g) (rest ++ enqList g (st.visited ++ [table]) table)
        visited := st.visited ++ [table]
        result := st.result ++ [table] } := by
  have htq : table ∈ st.queue := by
    rw [hq]
    exact List.mem_cons_self _ _
  have htn : table ∈ g.nodes := hI.queue_sub table htq
  have htr : table ∉ st.result := by
    rw [← hI.vis_eq]
    exact hv
  constructor
  · simp only [hI.vis_eq]
  · rw [List.nodup_append]
    exact ⟨hI.vis_nodup, List.nodup_singleton table,
      fun x hx hmem => htr (List.mem_singleton.mp hmem ▸ hx)⟩
  · intro t ht
    rcases List.mem_append.mp ht with h1 | h2
    · exact hI.vis_sub t (hI.vis_eq ▸ h1)
    · rw [List.mem_singleton.mp h2]
      exact htn
  · intro t ht
    rcases List.mem_append.mp ((mem_sortDesc _ _ t).mp ht) with h1 | h2
    · exact hI.queue_sub t (by rw [hq]; exact List.mem_cons_of_mem _ h1)
    · exact hWF.incoming_sub table t ((mem_enqList g _ table t).mp h2).1
  · intro t ht d hd
    rcases List.mem_append.mp ((mem_sortDesc _ _ t).mp ht) with h1 | h2
    · exact List.mem_append_left _
        (hI.queue_deps t (by rw [hq]; exact List.mem_cons_of_mem _ h1) d hd)
    · exact ((mem_enqList g _ table t).mp h2).2.2 d hd
  · intro u hu huv huq
    have hut : u ≠ table := by
      intro he
      exact huv (he ▸ List.mem_append_right _ (List.mem_singleton.mpr rfl))
    have hunv : u ∉ st.visited := fun hc => huv (List.mem_append_left _ hc)
    have hurest : u ∉ rest := by
      intro hc
      exact huq ((mem_sortDesc _ _ u).mpr (List.mem_append_left _ hc))
    have huE : u ∉ enqList g (st.visited ++ [table]) table := by
      intro hc
      exact huq ((mem_sortDesc _ _ u).mpr (List.mem_append_right _ hc))
    have huq0 : u ∉ st.queue := by
      rw [hq]
      intro hc
      rcases List.mem_cons.mp hc with h1 | h2
      · exact hut h1
      · exact hurest h2
    obtain ⟨d, hd, hdnv⟩ := hI.main_inv u hu hunv huq0
    by_cases hdt : d = table
    · have hedge : (u, table) ∈ g.edges := (hWF.edge_out u table).mpr (hdt ▸ hd)
      have hinc : u ∈ dictGetD g.incoming table [] := (hWF.edge_in u table).mp hedge
      have := mem_enqList g (st.visited ++ [table]) table u
      rw [iff_iff_implies_and_implies] at this
      have hnotall : ¬ (∀ d2 ∈ dictGetD g.outgoing u [], d2 ∈ st.visited ++ [table]) := by
        intro hall
        exact huE (this.2 ⟨hinc, huv, hall⟩)
      push_neg at hnotall
      obtain ⟨d2, hd2, hd2nv⟩ := hnotall
      exact ⟨d2, hd2, hd2nv⟩
    · refine ⟨d, hd, ?_⟩
      intro hc
      rcases List.mem_append.mp hc with h1 | h2
      · exact hdnv h1
      · exact hdt (List.mem_singleton.mp h2)
  · intro u hu d hd
    rcases List.mem_append.mp hu with h1 | h2
    · obtain ⟨hdm, hidx⟩ := hI.order_inv u h1 d hd
      refine ⟨List.mem_append_left _ hdm, ?_⟩
      rw [List.indexOf_append_of_mem hdm, List.indexOf_append_of_mem h1]
      exact hidx
    · have hu2 : u = table := List.mem_singleton.mp h2
      subst hu2
      have hdvis : d ∈ st.visited := hI.queue_deps u htq d hd
      have hdres : d ∈ st.result := hI.vis_eq ▸ hdvis
      refine ⟨List.mem_append_left _ hdres, ?_⟩
      rw [List.indexOf_append_of_mem hdres, indexOf_append_not_mem htr]
      have h0 : ([u] : List String).indexOf u = 0 := by
        simp [List.indexOf_cons]
      rw [h0, Nat.add_zero]
      exact List.indexOf_lt_length.mpr hdres
  · exact sortDesc_sorted _ _

theorem loopInv_step (g : DepGraph) (hWF : GraphWF g) (st st2 : SortState)
    (hI : LoopInv g st) (h : stepFn g st = some st2) : LoopInv g st2 := by
  match hq : st.queue with
  | [] =>
    rw [stepFn_none g st hq] at h
    cases h
  | table :: rest =>
    by_cases hv : table ∈ st.visited
    · rw [stepFn_skip g st table rest hq hv] at h
      rw [← Option.some.inj h]
      exact loopInv_skip g st table rest hI hq hv
    · rw [stepFn_visit g st table rest hq hv] at h
      rw [← Option.some.inj h]
      exact loopInv_visit g hWF st table rest hI hq hv

theorem stepFn_none_queue (g : DepGraph) (st : SortState) (h : stepFn g st = none) :
    st.queue = [] := by
  match hq : st.queue with
  | [] => rfl
  | table :: rest =>
    by_cases hv : table ∈ st.visited
    · rw [stepFn_skip g st table rest hq hv] at h
      cases h
    · rw [stepFn_visit g st table rest hq hv] at h
      cases h

theorem sortMeasure_step (g : DepGraph) (st st2 : SortState)
    (hI : LoopInv g st) (h : stepFn g st = some st2) :
    sortMeasure g st2 < sortMeasure g st := by
  match hq : st.queue with
  | [] =>
    rw [stepFn_none g st hq] at h
    cases h
  | table :: rest =>
    by_cases hv : table ∈ st.visited
    · rw [stepFn_skip g st table rest hq hv] at h
      rw [← Option.some.inj h]
      unfold sortMeasure
      rw [hq]
      simp only [List.length_cons]
      omega
    · rw [stepFn_visit g st table rest hq hv] at h
      rw [← Option.some.inj h]
      have htn : table ∈ g.nodes := hI.queue_sub table (by rw [hq]; exact List.mem_cons_self _ _)
      unfold sortMeasure
      rw [hq]
      simp only [List.length_cons]
      have hqlen : (sortDesc (indeg g) (rest ++ enqList g (st.visited ++ [table]) table)).length ≤
          rest.length + (dictGetD g.incoming table []).length := by
        rw [sortDesc_length, List.length_append]
        exact Nat.add_le_add_left (List.length_filter_le _ _) _
      have hmemF : table ∈ g.nodes.toFinset.filter (fun t => t ∉ st.visited) := by
        rw [Finset.mem_filter]
        exact ⟨List.mem_toFinset.mpr htn, hv⟩
      have hsum : ∑ t ∈ g.nodes.toFinset.filter (fun t => t ∉ st.visited ++ [table]),
            (dictGetD g.incoming t []).length +
          (dictGetD g.incoming table []).length =
          ∑ t ∈ g.nodes.toFinset.filter (fun t => t ∉ st.visited),
            (dictGetD g.incoming t []).length := by
        have hset : g.nodes.toFinset.filter (fun t => t ∉ st.visited ++ [table]) =
            (g.nodes.toFinset.filter (fun t => t ∉ st.visited)).erase table := by
          ext x
          rw [Finset.mem_erase, Finset.mem_filter, Finset.mem_filter]
          constructor
          · rintro ⟨h1, h2⟩
            rw [List.mem_append, List.mem_singleton] at h2
            push_neg at h2
            exact ⟨h2.2, h1, h2.1⟩
          · rintro ⟨h1, h2, h3⟩
            refine ⟨h2, ?_⟩
            rw [List.mem_append, List.mem_singleton]
            push_neg
            exact ⟨h3, h1⟩
        rw [hset]
        exact Finset.sum_erase_add _ _ hmemF
      omega

theorem loop_fin (g : DepGraph) (hWF : GraphWF g) :
    ∀ (fuel : Nat) (st : SortState), LoopInv g st → sortMeasure g st < fuel →
      (loop g fuel st).queue = [] ∧ LoopInv g (loop g fuel st) := by
  intro fuel
  induction fuel with
  | zero =>
    intro st hI hm
    exact absurd hm (Nat.not_lt_zero _)
  | succ f ih =>
    intro st hI hm
    match hstep : stepFn g st with
    | none =>
      rw [loop_succ_none g f st hstep]
      exact ⟨stepFn_none_queue g st hstep, hI⟩
    | some st2 =>
      rw [loop_succ_some g f st st2 hstep]
      exact ih st2 (loopInv_step g hWF st st2 hI hstep)
        (lt_of_lt_of_le (sortMeasure_step g st st2 hI hstep) (Nat.lt_succ_iff.mp hm))

theorem sum_dictGetD_le (m : List (String × List String)) (s : Finset String) :
    ∑ t ∈ s, (dictGetD m t []).length ≤ (m.map (fun p => p.2.length)).sum := by
  induction m generalizing s with
  | nil =>
    simp [dictGetD, dictGet_nil]
  | cons p rest ih =>
    obtain ⟨k, vs⟩ := p
    rw [List.map_cons, List.sum_cons]
    dsimp only
    by_cases hk : k ∈ s
    · have hsplit : ∑ t ∈ s.erase k, (dictGetD ((k, vs) :: rest) t []).length +
          (dictGetD ((k, vs) :: rest) k []).length =
          ∑ t ∈ s, (dictGetD ((k, vs) :: rest) t []).length :=
        Finset.sum_erase_add s _ hk
      have hkk : (dictGetD ((k, vs) :: rest) k []).length = vs.length := by
        rw [dictGetD_cons, if_pos rfl]
      have hcong : ∑ t ∈ s.erase k, (dictGetD ((k, vs) :: rest) t []).length =
          ∑ t ∈ s.erase k, (dictGetD rest t []).length := by
        refine Finset.sum_congr rfl ?_
        intro t ht
        rw [dictGetD_cons, if_neg (Finset.ne_of_mem_erase ht).symm]
      rw [← hsplit, hkk, hcong]
      have := ih (s.erase k)
      omega
    · have hcong : ∑ t ∈ s, (dictGetD ((k, vs) :: rest) t []).length =
          ∑ t ∈ s, (dictGetD rest t []).length := by
        refine Finset.sum_congr rfl ?_
        intro t ht
        have hne : k ≠ t := fun he => hk (he.symm ▸ ht)
        rw [dictGetD_cons, if_neg hne]
      rw [hcong]
      have := ih s
      omega

theorem initMeasure_lt (g : DepGraph) : sortMeasure g (initSt g) < sortFuel g := by
  unfold sortMeasure sortFuel initSt
  simp only
  have h1 : (sortDesc (indeg g)
      (g.nodes.filter (fun t => (dictGetD g.outgoing t []).length == 0))).length ≤
      g.nodes.length := by
    rw [sortDesc_length]
    exact List.length_filter_le _ _
  have hfilter : g.nodes.toFinset.filter (fun t => t ∉ ([] : List String)) =
      g.nodes.toFinset :=
    Finset.filter_true_of_mem (fun x _ => List.not_mem_nil x)
  have h2 : ∑ t ∈ g.nodes.toFinset.filter (fun t => t ∉ ([] : List String)),
      (dictGetD g.incoming t []).length ≤
      (g.incoming.map (fun p => p.2.length)).sum := by
    rw [hfilter]
    exact sum_dictGetD_le _ _
  omega

theorem loop_result_ext (g : DepGraph) :
    ∀ (fuel : Nat) (st : SortState), ∃ ext, (loop g fuel st).result = st.result ++ ext := by
  intro fuel
  induction fuel with
  | zero =>
    intro st
    exact ⟨[], by rw [loop_zero, List.append_nil]⟩
  | succ f ih =>
    intro st
    match hstep : stepFn g st with
    | none =>
      rw [loop_succ_none g f st hstep]
      exact ⟨[], by rw [List.append_nil]⟩
    | some st2 =>
      rw [loop_succ_some g f st st2 hstep]
      match hq : st.queue with
      | [] =>
        rw [stepFn_none g st hq] at hstep
        cases hstep
      | table :: rest =>
        by_cases hv : table ∈ st.visited
        · rw [stepFn_skip g st table rest hq hv] at hstep
          obtain rfl := Option.some.inj hstep
          obtain ⟨ext2, hext2⟩ := ih { st with queue := rest }
          exact ⟨ext2, hext2⟩
        · rw [stepFn_visit g st table rest hq hv] at hstep
          obtain rfl := Option.some.inj hstep
          obtain ⟨ext2, hext2⟩ := ih
            { queue := sortDesc (indeg g) (rest ++ enqList g (st.visited ++ [table]) table)
              visited := st.visited ++ [table]
              result := st.result ++ [table] }
          refine ⟨[table] ++ ext2, ?_⟩
          rw [hext2]
          simp

theorem loop_visited_mono (g : DepGraph) :
    ∀ (fuel : Nat) (st : SortState) (t : String),
      t ∈ st.visited → t ∈ (loop g fuel st).visited := by
  intro fuel
  induction fuel with
  | zero =>
    intro st t ht
    rw [loop_zero]
    exact ht
  | succ f ih =>
    intro st t ht
    match hstep : stepFn g st with
    | none =>
      rw [loop_succ_none g f st hstep]
      exact ht
    | some st2 =>
      rw [loop_succ_some g f st st2 hstep]
      match hq : st.queue with
      | [] =>
        rw [stepFn_none g st hq] at hstep
        cases hstep
      | table :: rest =>
        by_cases hv : table ∈ st.visited
        · rw [stepFn_skip g st table rest hq hv] at hstep
          refine ih st2 t ?_
          rw [← Option.some.inj hstep]
          exact ht
        · rw [stepFn_visit g st table rest hq hv] at hstep
          refine ih st2 t ?_
          rw [← Option.some.inj hstep]
          exact List.mem_append_left _ ht

theorem loop_queue_placed (g : DepGraph) (hWF : GraphWF g) :
    ∀ (fuel : Nat) (st : SortState), LoopInv g st → sortMeasure g st < fuel →
      ∀ y ∈ st.queue, y ∈ (loop g fuel st).result := by
  intro fuel
  induction fuel with
  | zero =>
    intro st hI hm
    exact absurd hm (Nat.not_lt_zero _)
  | succ f ih =>
    intro st hI hm y hy
    match hstep : stepFn g st with
    | none =>
      rw [stepFn_none_queue g st hstep] at hy
      cases hy
    | some st2 =>
      rw [loop_succ_some g f st st2 hstep]
      have hI2 : LoopInv g st2 := loopInv_step g hWF st st2 hI hstep
      have hm2 : sortMeasure g st2 < f :=
        lt_of_lt_of_le (sortMeasure_step g st st2 hI hstep) (Nat.lt_succ_iff.mp hm)
      match hq : st.queue with
      | [] =>
        rw [stepFn_none g st hq] at hstep
        cases hstep
      | table :: rest =>
        rw [hq] at hy
        by_cases hv : table ∈ st.visited
        · rw [stepFn_skip g st table rest hq hv] at hstep
          obtain rfl := Option.some.inj hstep
          rcases List.mem_cons.mp hy with rfl | hy2
          · obtain ⟨ext, hext⟩ := loop_result_ext g f _
            rw [hext]
            exact List.mem_append_left _ (hI.vis_eq ▸ hv)
          · exact ih _ hI2 hm2 y hy2
        · rw [stepFn_visit g st table rest hq hv] at hstep
          obtain rfl := Option.some.inj hstep
          rcases List.mem_cons.mp hy with rfl | hy2
          · obtain ⟨ext, hext⟩ := loop_result_ext g f _
            rw [hext]
            exact List.mem_append_left _
              (List.mem_append_right _ (List.mem_singleton.mpr rfl))
          · refine ih _ hI2 hm2 y ?_
            exact (mem_sortDesc _ _ y).mpr (List.mem_append_left _ hy2)

theorem loop_stable (g : DepGraph) (hWF : GraphWF g) :
    ∀ (f1 f2 : Nat) (st : SortState), LoopInv g st →
      sortMeasure g st < f1 → sortMeasure g st < f2 → loop g f1 st = loop g f2 st := by
  intro f1
  induction f1 with
  | zero =>
    intro f2 st hI hm1 hm2
    exact absurd hm1 (Nat.not_lt_zero _)
  | succ f1 ih =>
    intro f2 st hI hm1 hm2
    match f2 with
    | 0 => exact absurd hm2 (Nat.not_lt_zero _)
    | f2 + 1 =>
      match hstep : stepFn g st with
      | none =>
        rw [loop_succ_none g f1 st hstep, loop_succ_none g f2 st hstep]
      | some st2 =>
        rw [loop_succ_some g f1 st st2 hstep, loop_succ_some g f2 st st2 hstep]
        have hI2 : LoopInv g st2 := loopInv_step g hWF st st2 hI hstep
        have hms : sortMeasure g st2 < sortMeasure g st := sortMeasure_step g st st2 hI hstep
        exact ih f2 st2 hI2 (lt_of_lt_of_le hms (Nat.lt_succ_iff.mp hm1))
          (lt_of_lt_of_le hms (Nat.lt_succ_iff.mp hm2))

theorem loop_tiebreak (g : DepGraph) (hWF : GraphWF g) :
    ∀ (fuel : Nat) (st : SortState) (x y : String), LoopInv g st → sortMeasure g st < fuel →
      x ∈ st.queue → y ∈ st.queue → x ∉ st.visited → y ∉ st.visited →
      indeg g y < indeg g x →
      (loop g fuel st).result.indexOf x < (loop g fuel st).result.indexOf y := by
  intro fuel
  induction fuel with
  | zero =>
    intro st x y hI hm
    exact absurd hm (Nat.not_lt_zero _)
  | succ f ih =>
    intro st x y hI hm hx hy hxv hyv hxy
    have hxyne : x ≠ y := by
      intro he
      rw [he] at hxy
      exact lt_irrefl _ hxy
    have hm' : sortMeasure g st ≤ f := Nat.lt_succ_iff.mp hm
    match hq : st.queue with
    | [] =>
      rw [hq] at hx
      cases hx
    | table :: rest =>
      rw [hq] at hx hy
      by_cases hv : table ∈ st.visited
      · have hstep := stepFn_skip g st table rest hq hv
        rw [loop_succ_some g f st _ hstep]
        have hI2 := loopInv_step g hWF st _ hI hstep
        have hm2 : sortMeasure g _ < f :=
          lt_of_lt_of_le (sortMeasure_step g st _ hI hstep) hm'
        have hxt : x ≠ table := fun he => hxv (he ▸ hv)
        have hyt : y ≠ table := fun he => hyv (he ▸ hv)
        refine ih _ x y hI2 hm2 ?_ ?_ hxv hyv hxy
        · rcases List.mem_cons.mp hx with h1 | h1
          · exact absurd h1 hxt
          · exact h1
        · rcases List.mem_cons.mp hy with h1 | h1
          · exact absurd h1 hyt
          · exact h1
      · have hstep := stepFn_visit g st table rest hq hv
        rw [loop_succ_some g f st _ hstep]
        have hI2 := loopInv_step g hWF st _ hI hstep
        have hm2 : sortMeasure g _ < f :=
          lt_of_lt_of_le (sortMeasure_step g st _ hI hstep) hm'
        by_cases hxt : x = table
        · subst hxt
          obtain ⟨ext, hext⟩ := loop_result_ext g f
            { queue := sortDesc (indeg g) (rest ++ enqList g (st.visited ++ [x]) x)
              visited := st.visited ++ [x]
              result := st.result ++ [x] }
          rw [hext]
          have hxr : x ∉ st.result := by
        
            rw [← hI.vis_eq]
            exact hxv
          have hyr : y ∉ st.result ++ [x] := by
            intro hc
            rcases List.mem_append.mp hc with h1 | h2
            · exact hyv (hI.vis_eq ▸ h1)
            · exact hxyne (List.mem_singleton.mp h2).symm
          have hix : ((st.result ++ [x]) ++ ext).indexOf x = st.result.length := by
            rw [List.indexOf_append_of_mem
              (List.mem_append_right _ (List.mem_singleton.mpr rfl)),
              indexOf_append_not_mem hxr]
            simp [List.indexOf_cons]
          have hiy : ((st.result ++ [x]) ++ ext).indexOf y =
              (st.result.length + 1) + ext.indexOf y := by
            rw [indexOf_append_not_mem hyr, List.length_append, List.length_singleton]
          dsimp only at hext ⊢
          rw [hix, hiy]
          omega
        · by_cases hyt : y = table
          · subst hyt
            have hsorted := hI.queue_sorted
            rw [hq] at hsorted
            have := (List.pairwise_cons.mp hsorted).1 x
              (by rcases List.mem_cons.mp hx with h1 | h1
                  · exact absurd h1 hxt
                  · exact h1)
            omega
          · have hx2 : x ∈ rest := by
              rcases List.mem_cons.mp hx with h1 | h1
              · exact absurd h1 hxt
              · exact h1
            have hy2 : y ∈ rest := by
              rcases List.mem_cons.mp hy with h1 | h1
              · exact absurd h1 hyt
              · exact h1
            refine ih _ x y hI2 hm2
              ((mem_sortDesc _ _ x).mpr (List.mem_append_left _ hx2))
              ((mem_sortDesc _ _ y).mpr (List.mem_append_left _ hy2))
              ?_ ?_ hxy
            · intro hc
              rcases List.mem_append.mp hc with h1 | h2
              · exact hxv h1
              · exact hxt (List.mem_singleton.mp h2)
            · intro hc
              rcases List.mem_append.mp hc with h1 | h2
              · exact hyv h1
              · exact hyt (List.mem_singleton.mp h2)

theorem reach_inv (g : DepGraph) (hWF : GraphWF g) (st : SortState)
    (hR : Reachable g st) : LoopInv g st := by
  induction hR with
  | refl => exact loopInv_init g
  | tail hab hbc ih => exact loopInv_step g hWF _ _ ih hbc

theorem reach_loop (g : DepGraph) (hWF : GraphWF g) (st : SortState)
    (hR : Reachable g st) :
    loop g (sortFuel g) (initSt g) = loop g (sortMeasure g st + 1) st := by
  induction hR with
  | refl =>
    exact loop_stable g hWF (sortFuel g) (sortMeasure g (initSt g) + 1) (initSt g)
      (loopInv_init g) (initMeasure_lt g) (Nat.lt_succ_self _)
  | @tail b c hab hbc ih =>
    have hIb : LoopInv g b := reach_inv g hWF b hab
    have hIc : LoopInv g c := loopInv_step g hWF b c hIb hbc
    have hmc : sortMeasure g c < sortMeasure g b := sortMeasure_step g b c hIb hbc
    rw [ih, loop_succ_some g (sortMeasure g b) b c hbc]
    exact loop_stable g hWF (sortMeasure g b) (sortMeasure g c + 1) c hIc hmc
      (Nat.lt_succ_self _)

theorem cycle_of_succ (R : String → String → Prop) (U : List String) (u0 : String)
    (hu0 : u0 ∈ U) (hstep : ∀ u ∈ U, ∃ v ∈ U, R u v) :
    ∃ t, Relation.TransGen R t t := by
  classical
  have hf : ∀ a : {x : String // x ∈ U}, ∃ b : {x : String // x ∈ U}, R a.1 b.1 := by
    intro a
    obtain ⟨v, hv, hr⟩ := hstep a.1 a.2
    exact ⟨⟨v, hv⟩, hr⟩
  choose f hfspec using hf
  have hiter : ∀ (k : Nat) (a : {x : String // x ∈ U}), 1 ≤ k →
      Relation.TransGen (fun p q : {x : String // x ∈ U} => R p.1 q.1) a (f^[k] a) := by
    intro k
    induction k with
    | zero =>
      intro a h
      exact absurd h (by omega)
    | succ n ihn =>
      intro a h
      match n, ihn with
      | 0, _ =>
        rw [Function.iterate_one]
        exact Relation.TransGen.single (hfspec a)
      | m + 1, ihn =>
        have h1 := ihn a (by omega)
        have h2 : f^[m + 1 + 1] a = f (f^[m + 1] a) := Function.iterate_succ_apply' f _ a
        rw [h2]
        exact Relation.TransGen.tail h1 (hfspec _)
  have hfin : Fintype {x : String // x ∈ U} := List.Subtype.fintype U
  obtain ⟨i, j, hne, heq⟩ := Fintype.exists_ne_map_eq_of_card_lt
    (fun i : Fin (Fintype.card {x : String // x ∈ U} + 1) => f^[i.1] ⟨u0, hu0⟩)
    (by simp)
  have key : ∀ (a b : Nat), a < b → f^[a] (⟨u0, hu0⟩ : {x : String // x ∈ U}) = f^[b] ⟨u0, hu0⟩ →
      ∃ t, Relation.TransGen R t t := by
    intro a b hab he
    have h2 := hiter (b - a) (f^[a] ⟨u0, hu0⟩) (by omega)
    rw [← Function.iterate_add_apply] at h2
    have hba : b - a + a = b := by omega
    rw [hba] at h2
    rw [he] at h2
    exact ⟨(f^[b] ⟨u0, hu0⟩).1,
      Relation.TransGen.lift Subtype.val (fun p q hpq => hpq) h2⟩
  rcases lt_or_gt_of_ne (show i.1 ≠ j.1 from fun e => hne (Fin.val_injective e)) with h | h
  · exact key i.1 j.1 h heq
  · exact key j.1 i.1 h heq.symm

theorem notContains_iff (l : List String) (a : String) :
    (!l.contains a) = true ↔ a ∉ l := by
  simp [List.contains, List.elem_eq_mem]

theorem topo_perm (g : DepGraph) (hWF : GraphWF g) :
    (topoSortGraph g).Perm g.nodes := by
  obtain ⟨hqnil, hIf⟩ :=
    loop_fin g hWF (sortFuel g) (initSt g) (loopInv_init g) (initMeasure_lt g)
  have hnodup : (topoSortGraph g).Nodup := by
    unfold topoSortGraph
    rw [List.nodup_append]
    refine ⟨hIf.vis_nodup, List.Nodup.filter _ hWF.nodes_nodup, ?_⟩
    intro a ha hafil
    have h2 := (notContains_iff _ _).mp (List.mem_filter.mp hafil).2
    exact h2 (hIf.vis_eq ▸ ha)
  rw [List.perm_ext_iff_of_nodup hnodup hWF.nodes_nodup]
  intro x
  unfold topoSortGraph
  constructor
  · intro hx
    rcases List.mem_append.mp hx with h1 | h2
    · exact hIf.vis_sub x (hIf.vis_eq ▸ h1)
    · exact (List.mem_filter.mp h2).1
  · intro hx
    by_cases hv : x ∈ (loop g (sortFuel g) (initSt g)).visited
    · exact List.mem_append_left _ (hIf.vis_eq ▸ hv)
    · exact List.mem_append_right _
        (List.mem_filter.mpr ⟨hx, (notContains_iff _ _).mpr hv⟩)

theorem topo_acyclic_order (g : DepGraph) (hWF : GraphWF g)
    (hA : ∀ t, ¬ Relation.TransGen (fun a b : String => (a, b) ∈ g.edges) t t)
    (a b : String) (he : (a, b) ∈ g.edges) :
    (topoSortGraph g).indexOf b < (topoSortGraph g).indexOf a := by
  obtain ⟨hqnil, hIf⟩ :=
    loop_fin g hWF (sortFuel g) (initSt g) (loopInv_init g) (initMeasure_lt g)
  have hall : ∀ t ∈ g.nodes, t ∈ (loop g (sortFuel g) (initSt g)).visited := by
    by_contra hcon
    push_neg at hcon
    obtain ⟨u0, hu0, hu0v⟩ := hcon
    have hstepU : ∀ u ∈ g.nodes.filter
        (fun t => !(loop g (sortFuel g) (initSt g)).visited.contains t),
        ∃ v ∈ g.nodes.filter
          (fun t => !(loop g (sortFuel g) (initSt g)).visited.contains t),
          (u, v) ∈ g.edges := by
      intro u hu
      have hu1 := (List.mem_filter.mp hu).1
      have hu2 : u ∉ (loop g (sortFuel g) (initSt g)).visited :=
        (notContains_iff _ _).mp (List.mem_filter.mp hu).2
      obtain ⟨d, hd, hdv⟩ := hIf.main_inv u hu1 hu2
        (by rw [hqnil]; exact List.not_mem_nil u)
      exact ⟨d, List.mem_filter.mpr
        ⟨hWF.outgoing_sub u d hd, (notContains_iff _ _).mpr hdv⟩,
        (hWF.edge_out u d).mpr hd⟩
    obtain ⟨t, ht⟩ := cycle_of_succ _ _ u0
      (List.mem_filter.mpr ⟨hu0, (notContains_iff _ _).mpr hu0v⟩) hstepU
    exact hA t ht
  have hempty : g.nodes.filter
      (fun t => !(loop g (sortFuel g) (initSt g)).visited.contains t) = [] := by
    rw [List.filter_eq_nil_iff]
    intro t htn hc
    exact (notContains_iff _ _).mp hc (hall t htn)
  have hb_out : b ∈ dictGetD g.outgoing a [] := (hWF.edge_out a b).mp he
  have ha_nodes : a ∈ g.nodes := hWF.incoming_sub b a ((hWF.edge_in a b).mp he)
  have ha_res : a ∈ (loop g (sortFuel g) (initSt g)).result :=
    hIf.vis_eq ▸ hall a ha_nodes
  obtain ⟨hb_res, hlt⟩ := hIf.order_inv a ha_res b hb_out
  have hgoal : topoSortGraph g = (loop g (sortFuel g) (initSt g)).result ++
      g.nodes.filter (fun t => !(loop g (sortFuel g) (initSt g)).visited.contains t) := rfl
  rw [hgoal, hempty, List.append_nil]
  exact hlt

theorem transGen_exists_head (R : String → String → Prop) (x y : String)
    (h : Relation.TransGen R x y) : ∃ z, R x z := by
  induction h with
  | single h1 => exact ⟨_, h1⟩
  | tail h1 h2 ih => exact ih

theorem acyclicPair_acyclic : Acyclic (build_dependency_graph mdAcyclicPair) := by
  intro t h
  have hpair : ∀ u v, (u, v) ∈ (build_dependency_graph mdAcyclicPair).edges →
      u = "products" ∧ v = "categories" := by
    intro u v huv
    have hE : (build_dependency_graph mdAcyclicPair).edges = [("products", "categories")] := by
      decide
    rw [hE] at huv
    have := List.mem_singleton.mp huv
    exact Prod.ext_iff.mp this
  cases h with
  | single h1 =>
    obtain ⟨e1, e2⟩ := hpair t t h1
    exact absurd (e1.symm.trans e2) (by decide)
  | tail h1 h2 =>
    obtain ⟨z, hz⟩ := transGen_exists_head _ _ _ h1
    obtain ⟨e1, _⟩ := hpair t z hz
    obtain ⟨_, e2⟩ := hpair _ t h2
    exact absurd (e1.symm.trans e2) (by decide)

/-- C1: for every metadata snapshot, `topological_sort_tables` returns a
permutation of exactly the graph's node set (the node set itself being
duplicate-free, every node appears exactly once, with no omissions, cycles
included); in particular the 3-table cycle A→B→C→A yields all three names
exactly once, with no exception, in the deterministic fallback order. -/
theorem claim_C1_completeness :
    (∀ metadata : List TableMeta,
      (topological_sort_tables metadata).Perm (build_dependency_graph metadata).nodes ∧
      (build_dependency_graph metadata).nodes.Nodup) ∧
    topological_sort_tables mdCycle = ["A", "B", "C"] := by
  constructor
  · intro metadata
    exact ⟨topo_perm _ (graphWF_build metadata), (graphWF_build metadata).nodes_nodup⟩
  · decide

/-- C2: for every metadata snapshot whose dependency graph is acyclic and
every edge `(A, B)` of it (A references B), B's position in the output of
`topological_sort_tables` strictly precedes A's position. -/
theorem claim_C2_acyclic_order (metadata : List TableMeta)
    (hA : Acyclic (build_dependency_graph metadata)) (a b : String)
    (he : (a, b) ∈ (build_dependency_graph metadata).edges) :
    (topological_sort_tables metadata).indexOf b <
      (topological_sort_tables metadata).indexOf a :=
  topo_acyclic_order _ (graphWF_build metadata) hA a b he

/-- Witness for C2 at the concrete acyclic pair `products` → `categories`. -/
theorem claim_C2_witness :
    Acyclic (build_dependency_graph mdAcyclicPair) ∧
    ("products", "categories") ∈ (build_dependency_graph mdAcyclicPair).edges ∧
    (topological_sort_tables mdAcyclicPair).indexOf "categories" <
      (topological_sort_tables mdAcyclicPair).indexOf "products" :=
  ⟨acyclicPair_acyclic, by decide,
    claim_C2_acyclic_order mdAcyclicPair acyclicPair_acyclic "products" "categories"
      (by decide)⟩

/-- C3 as stated is false: with a duplicated foreign key, a stale queue entry
of an already-visited table can share the queue with a strictly
higher-in-degree table that is placed later.  In `mdStale`, after two loop
iterations the queue is `["X", "Y"]` (the `Y` entry is a stale duplicate,
`Y` having been enqueued twice via its two FK descriptors and already
visited), `in_degree` of `X` is 2 against 1 for `Y`, yet `Y` sits at output
position 1 and `X` at position 2. -/
theorem claim_C3_counterexample :
    ∃ st : SortState, Reachable (build_dependency_graph mdStale) st ∧
      "X" ∈ st.queue ∧ "Y" ∈ st.queue ∧
      indeg (build_dependency_graph mdStale) "Y" <
        indeg (build_dependency_graph mdStale) "X" ∧
      (topological_sort_tables mdStale).indexOf "Y" <
        (topological_sort_tables mdStale).indexOf "X" := by
  refine ⟨⟨["X", "Y"], ["P", "Y"], ["P", "Y"]⟩, ?_, ?_, ?_, ?_, ?_⟩
  · have h1 : stepFn (build_dependency_graph mdStale)
        (initSt (build_dependency_graph mdStale)) =
        some ⟨["Y", "Y"], ["P"], ["P"]⟩ := by decide
    have h2 : stepFn (build_dependency_graph mdStale) ⟨["Y", "Y"], ["P"], ["P"]⟩ =
        some ⟨["X", "Y"], ["P", "Y"], ["P", "Y"]⟩ := by decide
    exact Relation.ReflTransGen.tail
      (Relation.ReflTransGen.tail Relation.ReflTransGen.refl h1) h2
  · decide
  · decide
  · decide
  · decide

/-- C3 (amended): among tables simultaneously present in the work queue at any
reachable step of the sort, neither of which has been visited (placed) yet, a
table with strictly greater in-degree is placed in the output no later than a
table with smaller in-degree. -/
theorem claim_C3_tiebreak_amended (metadata : List TableMeta) (st : SortState) (x y : String)
    (hR : Reachable (build_dependency_graph metadata) st)
    (hx : x ∈ st.queue) (hy : y ∈ st.queue)
    (hxv : x ∉ st.visited) (hyv : y ∉ st.visited)
    (hxy : indeg (build_dependency_graph metadata) y <
      indeg (build_dependency_graph metadata) x) :
    (topological_sort_tables metadata).indexOf x ≤
      (topological_sort_tables metadata).indexOf y := by
  have hWF := graphWF_build metadata
  have hI := reach_inv _ hWF st hR
  have hloop := reach_loop _ hWF st hR
  have hkey := loop_tiebreak _ hWF
    (sortMeasure (build_dependency_graph metadata) st + 1) st x y hI
    (Nat.lt_succ_self _) hx hy hxv hyv hxy
  have hx_res := loop_queue_placed _ hWF
    (sortMeasure (build_dependency_graph metadata) st + 1) st hI
    (Nat.lt_succ_self _) x hx
  have hy_res := loop_queue_placed _ hWF
    (sortMeasure (build_dependency_graph metadata) st + 1) st hI
    (Nat.lt_succ_self _) y hy
  have hgoal : topological_sort_tables metadata =
      (loop (build_dependency_graph metadata)
        (sortFuel (build_dependency_graph metadata))
        (initSt (build_dependency_graph metadata))).result ++
      (build_dependency_graph metadata).nodes.filter
        (fun t => !(loop (build_dependency_graph metadata)
          (sortFuel (build_dependency_graph metadata))
          (initSt (build_dependency_graph metadata))).visited.contains t) := rfl
  rw [hgoal, hloop]
  rw [List.indexOf_append_of_mem hx_res, List.indexOf_append_of_mem hy_res]
  exact le_of_lt hkey

/-- Witness for the amended C3 at a concrete reachable state: the initial
queue of `mdTwoSeeds`, where seeds `A` (in-degree 2) and `B` (in-degree 0)
are simultaneously queued and unvisited, and `A` is placed no later. -/
theorem claim_C3_witness :
    ("A" ∈ (initSt (build_dependency_graph mdTwoSeeds)).queue) ∧
    ("B" ∈ (initSt (build_dependency_graph mdTwoSeeds)).queue) ∧
    indeg (build_dependency_graph mdTwoSeeds) "B" <
      indeg (build_dependency_graph mdTwoSeeds) "A" ∧
    (topological_sort_tables mdTwoSeeds).indexOf "A" ≤
      (topological_sort_tables mdTwoSeeds).indexOf "B" :=
  ⟨by decide, by decide, by decide,
    claim_C3_tiebreak_amended mdTwoSeeds (initSt (build_dependency_graph mdTwoSeeds))
      "A" "B" Relation.ReflTransGen.refl (by decide) (by decide) (by decide) (by decide)
      (by decide)⟩

/-- C4: the graph builder is total on snapshots with dangling references (it
is a Lean function, so no error is possible), every table appearing in any
edge is in `nodes`, and in the documented 4-table scenario the edge to the
absent table `users` is recorded, `users` is in `nodes`, and
`in_degree['users'] == 1`. -/
theorem claim_C4_dangling :
    (∀ (metadata : List TableMeta) (a b : String),
      (a, b) ∈ (build_dependency_graph metadata).edges →
      a ∈ (build_dependency_graph metadata).nodes ∧
      b ∈ (build_dependency_graph metadata).nodes) ∧
    ("orders", "users") ∈ (build_dependency_graph mdScenario).edges ∧
    "users" ∈ (build_dependency_graph mdScenario).nodes ∧
    dictGet (build_dependency_graph mdScenario).in_degree "users" = some 1 := by
  refine ⟨?_, by decide, by decide, by decide⟩
  intro metadata a b he
  have hWF := graphWF_build metadata
  exact ⟨hWF.incoming_sub b a ((hWF.edge_in a b).mp he),
    hWF.outgoing_sub a b ((hWF.edge_out a b).mp he)⟩

/-- Witness for C4's universally quantified part at the concrete dangling
edge `("orders", "users")` of the documented scenario. -/
theorem claim_C4_witness :
    (("orders", "users") ∈ (build_dependency_graph mdScenario).edges) ∧
    ("orders" ∈ (build_dependency_graph mdScenario).nodes ∧
      "users" ∈ (build_dependency_graph mdScenario).nodes) :=
  ⟨by decide, claim_C4_dangling.1 mdScenario "orders" "users" (by decide)⟩

/-- C5: for every metadata snapshot and every node `t`, the built graph has
`in_degree[t] == len(incoming[t])` and `out_degree[t] == len(outgoing[t])`
(degrees are exactly the adjacency-list lengths after all edges are added). -/
theorem claim_C5_degree_consistency (metadata : List TableMeta) (t : String)
    (ht : t ∈ (build_dependency_graph metadata).nodes) :
    dictGet (build_dependency_graph metadata).in_degree t =
      some (dictGetD (build_dependency_graph metadata).incoming t []).length ∧
    dictGet (build_dependency_graph metadata).out_degree t =
      some (dictGetD (build_dependency_graph metadata).outgoing t []).length :=
  ⟨dictGet_map_self _ _ t ht, dictGet_map_self _ _ t ht⟩

/-- Witness for C5 at the `categories` node of the documented scenario. -/
theorem claim_C5_witness :
    ("categories" ∈ (build_dependency_graph mdScenario).nodes) ∧
    (dictGet (build_dependency_graph mdScenario).in_degree "categories" =
      some (dictGetD (build_dependency_graph mdScenario).incoming "categories" []).length ∧
    dictGet (build_dependency_graph mdScenario).out_degree "categories" =
      some (dictGetD (build_dependency_graph mdScenario).outgoing "categories" []).length) :=
  ⟨by decide, claim_C5_degree_consistency mdScenario "categories" (by decide)⟩

theorem assoc_find_keys (ps : List (String × List (List String))) (nm : String)
    (hnd : (ps.map (fun p => p.1)).Nodup) :
    (ps.find? (fun p => matchAny p.2 nm)).map (fun p => p.1) =
      (ps.map (fun p => p.1)).find? (fun k => matchAny (dictGetD ps k []) nm) := by
  induction ps with
  | nil => rfl
  | cons p rest ih =>
    obtain ⟨k, v⟩ := p
    rw [List.map_cons] at hnd
    have hne : ∀ a ∈ rest.map (fun p => p.1), k ≠ a := (List.pairwise_cons.mp hnd).1
    have hnd2 : (rest.map (fun p => p.1)).Nodup := (List.pairwise_cons.mp hnd).2
    have hcongr : (rest.map (fun p => p.1)).find?
        (fun k2 => matchAny (dictGetD ((k, v) :: rest) k2 []) nm) =
        (rest.map (fun p => p.1)).find? (fun k2 => matchAny (dictGetD rest k2 []) nm) := by
      refine find?_congr_mem _ _ _ ?_
      intro k2 hk2
      rw [dictGetD_cons, if_neg (hne k2 hk2)]
    rw [List.map_cons, List.find?_cons, List.find?_cons]
    have hk : matchAny (dictGetD ((k, v) :: rest) k []) nm = matchAny v nm := by
      rw [dictGetD_cons, if_pos rfl]
    rw [hk]
    cases hm : matchAny v nm
    · dsimp only
      rw [hcongr]
      exact ih hnd2
    · rfl

/-- C6: `detect_semantic_type` returns exactly the first role, in the fixed
priority order `created_at, updated_at, deleted_at, created_by, updated_by,
status`, one of whose patterns fully matches the lower-cased column name —
and `none` when no role's pattern matches (`List.find?` returns `none`
exactly then, and when patterns of two roles both match, the earlier role in
the priority list wins by `find?` semantics). -/
theorem claim_C6_priority (name : String) :
    detect_semantic_type name = detectSpec name := by
  have h := assoc_find_keys SEMANTIC_PATTERNS (lowerStr name) (by decide)
  have hrole : rolePriority = SEMANTIC_PATTERNS.map (fun p => p.1) := by decide
  unfold detect_semantic_type detectSpec roleMatches
  rw [hrole]
  exact h

/-- C7: the documented example classifications. -/
theorem claim_C7_examples :
    detect_semantic_type "CreatedAt" = some "created_at" ∧
    detect_semantic_type "created_on" = some "created_at" ∧
    detect_semantic_type "date_created" = some "created_at" ∧
    detect_semantic_type "author" = some "created_by" ∧
    detect_semantic_type "is_active" = some "status" ∧
    detect_semantic_type "foo_bar" = none ∧
    detect_semantic_type "id" = none ∧
    detect_semantic_type "name" = none ∧
    detect_semantic_type "price" = none ∧
    detect_semantic_type "username" = none := by
  decide

theorem pyPercent_zero (r : Nat) : pyPercent 0 r = 0 := by
  simp [pyPercent, fdiv, fmul100, froundN, ffloor]

/-- C8 fails on the code at `current_count = 29`, `min_records_required =
100`: the float computation `int((29 / 100) * 100)` yields 28 (the binary64
value of `29/100` is slightly below `0.29`, and the product rounds to
`28.999999999999996`), while the claimed formula
`min(100, floor(100 * 29 / 100))` yields 29.  Totality, `current_count`, and
`is_complete = (29 >= 100) = False` behave as claimed. -/
theorem claim_C8_percentage_bug :
    (get_step_progress rowCount29 stepRequire100).percentage = 28 ∧
    min 100 ((100 * 29 : Int) / 100) = 29 ∧
    (get_step_progress rowCount29 stepRequire100).is_complete = false ∧
    (get_step_progress rowCount29 stepRequire100).current_count = 29 := by
  decide

/-- C9 fails on the code at 29 completed steps out of 50: the float
computation `int((29 / 50) * 100)` yields 57, while the claimed
`floor(100 * 29 / 50)` yields 58.  The completed-step count itself (a step
counts exactly when its progress reports `is_complete`) matches. -/
theorem claim_C9_overall_bug :
    (get_story_progress rowCount0 stepsFifty).total_steps = 50 ∧
    (get_story_progress rowCount0 stepsFifty).completed_steps = 29 ∧
    (get_story_progress rowCount0 stepsFifty).overall_percentage = 57 ∧
    ((100 * 29 : Int) / 50 = 58) := by
  decide

/-- C10: a step whose `source_type` is not `'table'` uses a current count of
0, so with `min_records_required ≥ 1` it is never complete and reports 0%. -/
theorem claim_C10_nontable (rowCount : String → Nat) (step : StoryStep)
    (hs : step.source_type ≠ "table") (hr : 1 ≤ step.min_records_required) :
    (get_step_progress rowCount step).is_complete = false ∧
    (get_step_progress rowCount step).percentage = 0 ∧
    (get_step_progress rowCount step).current_count = 0 := by
  unfold get_step_progress
  simp only [if_neg hs]
  refine ⟨?_, ?_, trivial⟩
  · have hlt : ¬ ((0 : Int) ≥ step.min_records_required) := by omega
    exact decide_eq_false hlt
  · rw [if_pos (by omega : step.min_records_required > 0), pyPercent_zero]
    rfl

/-- Witness for C10 at a concrete view step requiring one record, with a
row-count collaborator that would report 7 rows. -/
theorem claim_C10_witness :
    stepView.source_type ≠ "table" ∧ 1 ≤ stepView.min_records_required ∧
    ((get_step_progress rowCount7 stepView).is_complete = false ∧
      (get_step_progress rowCount7 stepView).percentage = 0 ∧
      (get_step_progress rowCount7 stepView).current_count = 0) :=
  ⟨by decide, by decide, claim_C10_nontable rowCount7 stepView (by decide) (by decide)⟩
